import Mathlib

/-
Verification of the pooled-index allocation subsystem of the motive
repository (src/include/motive/processor.h).

The repository ships only the interface header `processor.h`.  The
allocation core it delegates to (`fpl::IndexAllocator`, included from
`fplutil/index_allocator.h`) and the member-function bodies compiled in
`processor.cpp` are not part of the source tree, so those operations are
modelled faithfully from the specification's descriptions (each such
definition carries a doc comment starting with `Modelled from the spec:`).
The inline functions that do appear in the header (`ValidMotivator`,
`Dimensions`, `Defragment`, `ChildValue3f`, `SetChildValue3f`) are embedded
directly from their source text.

Modelling choices:
  * `MotiveIndex` / `MotiveDimension` are `Nat`.
  * A used range is a pair `(base, dimension)`; the allocator keeps its
    used ranges as a list sorted by base index (`rangesOk`), which encodes
    the spec's free/used bookkeeping: free ranges are exactly the gaps.
  * `Motivator*` identities are `Nat` ids; the back-reference table maps a
    live base index to the id of the handle bound there, and each bound
    handle stores its index (the `handleIdx` map), mirroring the two-way
    relation of spec section 4.2.
-/

namespace Motive

/-- A used range of the index allocator: `(base index, dimension)`. -/
abbrev Range : Type := Nat × Nat

/-- Association-list lookup used for both the back-reference table
(base index to handle id) and the used-range bookkeeping
(base index to dimension). -/
def alookup (k : Nat) : List (Nat × Nat) → Option Nat
  | [] => none
  | p :: rest => if p.1 = k then some p.2 else alookup k rest

/-- Remove every entry with key `k` from an association list. -/
def aremove (k : Nat) : List (Nat × Nat) → List (Nat × Nat)
  | [] => []
  | p :: rest => if p.1 = k then aremove k rest else p :: aremove k rest

/-- The keys of an association list are pairwise distinct. -/
def keysNodup : List (Nat × Nat) → Bool
  | [] => true
  | p :: rest => (alookup p.1 rest == none) && keysNodup rest

theorem alookup_cons (k : Nat) (p : Nat × Nat) (l : List (Nat × Nat)) :
    alookup k (p :: l) = if p.1 = k then some p.2 else alookup k l := rfl

theorem alookup_mem : ∀ {l : List (Nat × Nat)} {k v : Nat},
    alookup k l = some v → (k, v) ∈ l := by
  intro l
  induction l with
  | nil => intro k v h; simp [alookup] at h
  | cons p rest ih =>
    intro k v h
    rw [alookup_cons] at h
    by_cases hk : p.1 = k
    · rw [if_pos hk] at h
      injection h with h2
      exact List.mem_cons.mpr (Or.inl (by rw [← hk, ← h2]))
    · rw [if_neg hk] at h
      exact List.mem_cons.mpr (Or.inr (ih h))

theorem alookup_isSome_of_mem : ∀ {l : List (Nat × Nat)} {p : Nat × Nat},
    p ∈ l → (alookup p.1 l).isSome = true := by
  intro l
  induction l with
  | nil => intro p h; simp at h
  | cons q rest ih =>
    intro p h
    rcases List.mem_cons.mp h with h1 | h2
    · subst h1; simp [alookup_cons]
    · by_cases hq : q.1 = p.1
      · simp [alookup_cons, hq]
      · simp only [alookup_cons, if_neg hq]
        exact ih h2

theorem alookup_eq_none_of_not_mem {l : List (Nat × Nat)} {k : Nat}
    (h : ∀ v, (k, v) ∉ l) : alookup k l = none := by
  cases hl : alookup k l with
  | none => rfl
  | some v => exact absurd (alookup_mem hl) (h v)

theorem not_mem_of_alookup_eq_none {l : List (Nat × Nat)} {k v : Nat}
    (h : alookup k l = none) : (k, v) ∉ l := by
  intro hmem
  have := alookup_isSome_of_mem hmem
  simp only at this
  rw [h] at this
  simp at this

theorem alookup_aremove (j k : Nat) : ∀ l : List (Nat × Nat),
    alookup j (aremove k l) = if j = k then none else alookup j l := by
  intro l
  induction l with
  | nil => by_cases h : j = k <;> simp [aremove, alookup, h]
  | cons p rest ih =>
    simp only [aremove]
    by_cases hpk : p.1 = k
    · rw [if_pos hpk, ih]
      by_cases hjk : j = k
      · rw [if_pos hjk, if_pos hjk]
      · rw [if_neg hjk, if_neg hjk, alookup_cons,
          if_neg (fun hpj => hjk (by rw [← hpj, hpk]))]
    · rw [if_neg hpk, alookup_cons]
      by_cases hpj : p.1 = j
      · have hjk : ¬ j = k := fun h => hpk (by rw [hpj, h])
        rw [if_pos hpj, if_neg hjk, alookup_cons, if_pos hpj]
      · rw [if_neg hpj, ih]
        by_cases hjk : j = k
        · rw [if_pos hjk, if_pos hjk]
        · rw [if_neg hjk, if_neg hjk, alookup_cons, if_neg hpj]

theorem mem_aremove : ∀ {l : List (Nat × Nat)} {k : Nat} {p : Nat × Nat},
    p ∈ aremove k l → p ∈ l ∧ p.1 ≠ k := by
  intro l
  induction l with
  | nil => intro k p h; simp [aremove] at h
  | cons q rest ih =>
    intro k p h
    simp only [aremove] at h
    by_cases hq : q.1 = k
    · rw [if_pos hq] at h
      obtain ⟨h1, h2⟩ := ih h
      exact ⟨List.mem_cons.mpr (Or.inr h1), h2⟩
    · rw [if_neg hq] at h
      rcases List.mem_cons.mp h with h1 | h2
      · subst h1; exact ⟨List.mem_cons_self _ _, hq⟩
      · obtain ⟨h1, h2⟩ := ih h2
        exact ⟨List.mem_cons.mpr (Or.inr h1), h2⟩

theorem keysNodup_aremove {l : List (Nat × Nat)} {k : Nat}
    (h : keysNodup l = true) : keysNodup (aremove k l) = true := by
  induction l with
  | nil => simpa [aremove] using h
  | cons p rest ih =>
    simp only [keysNodup, Bool.and_eq_true, beq_iff_eq] at h
    obtain ⟨h1, h2⟩ := h
    simp only [aremove]
    by_cases hpk : p.1 = k
    · rw [if_pos hpk]; exact ih h2
    · rw [if_neg hpk]
      simp only [keysNodup, Bool.and_eq_true, beq_iff_eq]
      refine ⟨?_, ih h2⟩
      rw [alookup_aremove]
      by_cases hk : p.1 = k
      · exact absurd hk hpk
      · rw [if_neg hk]; exact h1

theorem keysNodup_cons {l : List (Nat × Nat)} {k v : Nat}
    (hnone : alookup k l = none) (h : keysNodup l = true) :
    keysNodup ((k, v) :: l) = true := by
  simp only [keysNodup, Bool.and_eq_true, beq_iff_eq]
  exact ⟨hnone, h⟩

theorem alookup_of_mem_keysNodup : ∀ {l : List (Nat × Nat)} {p : Nat × Nat},
    keysNodup l = true → p ∈ l → alookup p.1 l = some p.2 := by
  intro l
  induction l with
  | nil => intro p _ h; simp at h
  | cons q rest ih =>
    intro p hnd hmem
    simp only [keysNodup, Bool.and_eq_true, beq_iff_eq] at hnd
    obtain ⟨h1, h2⟩ := hnd
    rcases List.mem_cons.mp hmem with hm | hm
    · subst hm; simp [alookup_cons]
    · by_cases hq : q.1 = p.1
      · exfalso
        have := alookup_isSome_of_mem hm
        rw [← hq, h1] at this
        simp at this
      · rw [alookup_cons, if_neg hq]
        exact ih h2 hm

/-- Every used range of the list lies at or above `lo`, ranges appear in
ascending base order, are pairwise disjoint, and every dimension is at
least 1.  This is the well-formedness of the allocator's used-range
bookkeeping (spec section 3, free/used bookkeeping). -/
def rangesOk : Nat → List Range → Bool
  | _, [] => true
  | lo, r :: rest => decide (lo ≤ r.1) && decide (1 ≤ r.2) && rangesOk (r.1 + r.2) rest

/-- One past the highest slot covered by any used range (0 when none). -/
def usedEnd : List Range → Nat
  | [] => 0
  | r :: rest => max (r.1 + r.2) (usedEnd rest)

/-- Total number of slots covered by the used ranges. -/
def totalDim : List Range → Nat
  | [] => 0
  | r :: rest => r.2 + totalDim rest

/-- Modelled from the spec: the search step of `IndexAllocator::Alloc`
(`fplutil/index_allocator.h`, not in the source tree).  Scanning the used
ranges in ascending order, return the lowest-indexed free gap of size at
least `d` (or the position right after the last used range), together
with the used list extended by the new range. -/
def findFree (lo d : Nat) : List Range → Nat × List Range
  | [] => (lo, [(lo, d)])
  | r :: rest =>
    if lo + d ≤ r.1 then (lo, (lo, d) :: r :: rest)
    else
      let res := findFree (r.1 + r.2) d rest
      (res.1, r :: res.2)

/-- Modelled from the spec: `IndexAllocator::Free` returns the range whose
base is `i` to the free pool, i.e. drops it from the used list (free
ranges are represented implicitly as the gaps). -/
def removeRange (i : Nat) : List Range → List Range
  | [] => []
  | r :: rest => if r.1 = i then rest else r :: removeRange i rest

/-- Modelled from the spec: the relocation pass of
`IndexAllocator::Defragment` walks the used ranges in ascending order and
shifts each down to the lowest available position, preserving order. -/
def packRanges : Nat → List Range → List Range
  | _, [] => []
  | lo, r :: rest => (lo, r.2) :: packRanges (lo + r.2) rest

/-- Modelled from the spec: the `(old_base, new_base)` move-callback pairs
that `Defragment` issues, one per used range in ascending order. -/
def defragMoves : Nat → List Range → List (Nat × Nat)
  | _, [] => []
  | lo, r :: rest => (r.1, lo) :: defragMoves (lo + r.2) rest

/-- Where the defragmentation relocation map sends index `i`
(identity for indices that are not moved bases). -/
def lookupMove (i : Nat) : List (Nat × Nat) → Nat
  | [] => i
  | m :: rest => if m.1 = i then m.2 else lookupMove i rest

/-- The ranges tile the address space contiguously starting at `lo`:
each base is exactly the end of the previous range (no free gap below
any used range). -/
def tiles : Nat → List Range → Bool
  | _, [] => true
  | lo, r :: rest => decide (r.1 = lo) && decide (1 ≤ r.2) && tiles (r.1 + r.2) rest

theorem rangesOk_le : ∀ {l : List Range} {lo lo' : Nat}, lo' ≤ lo →
    rangesOk lo l = true → rangesOk lo' l = true := by
  intro l
  induction l with
  | nil => intro lo lo' _ _; rfl
  | cons r rest _ =>
    intro lo lo' hle h
    simp only [rangesOk, Bool.and_eq_true, decide_eq_true_eq] at h ⊢
    exact ⟨⟨Nat.le_trans hle h.1.1, h.1.2⟩, h.2⟩

theorem rangesOk_base_ge : ∀ {l : List Range} {lo : Nat}, rangesOk lo l = true →
    ∀ r ∈ l, lo ≤ r.1 := by
  intro l
  induction l with
  | nil => intro lo _ r hr; simp at hr
  | cons q rest ih =>
    intro lo h r hr
    simp only [rangesOk, Bool.and_eq_true, decide_eq_true_eq] at h
    rcases List.mem_cons.mp hr with hm | hm
    · subst hm; exact h.1.1
    · exact Nat.le_trans (Nat.le_trans h.1.1 (Nat.le_add_right _ _)) (ih h.2 r hm)

theorem rangesOk_dim_pos : ∀ {l : List Range} {lo : Nat}, rangesOk lo l = true →
    ∀ r ∈ l, 1 ≤ r.2 := by
  intro l
  induction l with
  | nil => intro lo _ r hr; simp at hr
  | cons q rest ih =>
    intro lo h r hr
    simp only [rangesOk, Bool.and_eq_true, decide_eq_true_eq] at h
    rcases List.mem_cons.mp hr with hm | hm
    · subst hm; exact h.1.2
    · exact ih h.2 r hm

theorem alookup_none_of_lt {l : List Range} {x j : Nat}
    (hge : ∀ r ∈ l, x ≤ r.1) (hj : j < x) : alookup j l = none := by
  apply alookup_eq_none_of_not_mem
  intro v hmem
  have := hge _ hmem
  simp only at this
  omega

theorem rangesOk_alookup_dim {l : List Range} {lo i d : Nat}
    (hok : rangesOk lo l = true) (h : alookup i l = some d) : 1 ≤ d :=
  rangesOk_dim_pos hok _ (alookup_mem h)

theorem findFree_base_ge : ∀ {l : List Range} {lo d : Nat}, rangesOk lo l = true →
    lo ≤ (findFree lo d l).1 := by
  intro l
  induction l with
  | nil => intro lo d _; exact Nat.le_refl lo
  | cons r rest ih =>
    intro lo d h
    simp only [rangesOk, Bool.and_eq_true, decide_eq_true_eq] at h
    obtain ⟨⟨hlo, hdim⟩, hrest⟩ := h
    rw [findFree]
    by_cases hc : lo + d ≤ r.1
    · rw [if_pos hc]
    · rw [if_neg hc]
      exact Nat.le_trans (Nat.le_trans hlo (Nat.le_add_right _ _)) (ih hrest)

theorem findFree_alookup : ∀ {l : List Range} {lo d : Nat}, rangesOk lo l = true →
    ∀ j, alookup j (findFree lo d l).2 =
      if j = (findFree lo d l).1 then some d else alookup j l := by
  intro l
  induction l with
  | nil =>
    intro lo d _ j
    show alookup j [(lo, d)] = if j = lo then some d else alookup j []
    rw [alookup_cons]
    by_cases hj : lo = j
    · rw [if_pos hj, if_pos hj.symm]
    · rw [if_neg hj, if_neg (fun hh => hj hh.symm)]
  | cons r rest ih =>
    intro lo d h j
    simp only [rangesOk, Bool.and_eq_true, decide_eq_true_eq] at h
    obtain ⟨⟨hlo, hdim⟩, hrest⟩ := h
    rw [findFree]
    by_cases hc : lo + d ≤ r.1
    · rw [if_pos hc]
      show alookup j ((lo, d) :: r :: rest) = if j = lo then some d else alookup j (r :: rest)
      rw [alookup_cons]
      by_cases hj : lo = j
      · rw [if_pos hj, if_pos hj.symm]
      · rw [if_neg hj, if_neg (fun hh => hj hh.symm)]
    · rw [if_neg hc]
      have hge : r.1 + r.2 ≤ (findFree (r.1 + r.2) d rest).1 := findFree_base_ge hrest
      show alookup j (r :: (findFree (r.1 + r.2) d rest).2) =
        if j = (findFree (r.1 + r.2) d rest).1 then some d else alookup j (r :: rest)
      rw [alookup_cons]
      by_cases hrj : r.1 = j
      · have hne : ¬ j = (findFree (r.1 + r.2) d rest).1 := by omega
        rw [if_pos hrj, if_neg hne, alookup_cons, if_pos hrj]
      · rw [if_neg hrj, ih hrest j]
        by_cases hji : j = (findFree (r.1 + r.2) d rest).1
        · rw [if_pos hji, if_pos hji]
        · rw [if_neg hji, if_neg hji, alookup_cons, if_neg hrj]

theorem findFree_fresh : ∀ {l : List Range} {lo d : Nat}, rangesOk lo l = true →
    1 ≤ d → alookup (findFree lo d l).1 l = none := by
  intro l
  induction l with
  | nil => intro lo d _ _; rfl
  | cons r rest ih =>
    intro lo d h hd
    simp only [rangesOk, Bool.and_eq_true, decide_eq_true_eq] at h
    obtain ⟨⟨hlo, hdim⟩, hrest⟩ := h
    rw [findFree]
    by_cases hc : lo + d ≤ r.1
    · rw [if_pos hc]
      show alookup lo (r :: rest) = none
      have hx : ∀ r' ∈ r :: rest, r.1 ≤ r'.1 := by
        intro r' hr'
        rcases List.mem_cons.mp hr' with hm | hm
        · subst hm; exact Nat.le_refl _
        · exact Nat.le_trans (Nat.le_add_right _ _) (rangesOk_base_ge hrest r' hm)
      exact alookup_none_of_lt hx (by omega)
    · rw [if_neg hc]
      show alookup (findFree (r.1 + r.2) d rest).1 (r :: rest) = none
      have hge : r.1 + r.2 ≤ (findFree (r.1 + r.2) d rest).1 := findFree_base_ge hrest
      rw [alookup_cons, if_neg (by omega)]
      exact ih hrest hd

theorem findFree_rangesOk : ∀ {l : List Range} {lo d : Nat}, rangesOk lo l = true →
    1 ≤ d → rangesOk lo (findFree lo d l).2 = true := by
  intro l
  induction l with
  | nil =>
    intro lo d _ hd
    show rangesOk lo [(lo, d)] = true
    simp [rangesOk, hd]
  | cons r rest ih =>
    intro lo d h hd
    simp only [rangesOk, Bool.and_eq_true, decide_eq_true_eq] at h
    obtain ⟨⟨hlo, hdim⟩, hrest⟩ := h
    rw [findFree]
    by_cases hc : lo + d ≤ r.1
    · rw [if_pos hc]
      show rangesOk lo ((lo, d) :: r :: rest) = true
      simp only [rangesOk, Bool.and_eq_true, decide_eq_true_eq]
      exact ⟨⟨Nat.le_refl _, hd⟩, ⟨hc, hdim⟩, hrest⟩
    · rw [if_neg hc]
      show rangesOk lo (r :: (findFree (r.1 + r.2) d rest).2) = true
      simp only [rangesOk, Bool.and_eq_true, decide_eq_true_eq]
      exact ⟨⟨hlo, hdim⟩, ih hrest hd⟩

theorem findFree_usedEnd : ∀ {l : List Range} {lo d : Nat},
    usedEnd (findFree lo d l).2 = max (usedEnd l) ((findFree lo d l).1 + d) := by
  intro l
  induction l with
  | nil =>
    intro lo d
    show usedEnd [(lo, d)] = max (usedEnd []) (lo + d)
    simp [usedEnd]
  | cons r rest ih =>
    intro lo d
    rw [findFree]
    by_cases hc : lo + d ≤ r.1
    · rw [if_pos hc]
      show usedEnd ((lo, d) :: r :: rest) = max (usedEnd (r :: rest)) (lo + d)
      simp only [usedEnd]
      omega
    · rw [if_neg hc]
      show usedEnd (r :: (findFree (r.1 + r.2) d rest).2) =
        max (usedEnd (r :: rest)) ((findFree (r.1 + r.2) d rest).1 + d)
      simp only [usedEnd]
      rw [ih]
      omega

theorem removeRange_findFree : ∀ {l : List Range} {lo d : Nat}, rangesOk lo l = true →
    removeRange (findFree lo d l).1 (findFree lo d l).2 = l := by
  intro l
  induction l with
  | nil =>
    intro lo d _
    show removeRange lo [(lo, d)] = []
    simp [removeRange]
  | cons r rest ih =>
    intro lo d h
    simp only [rangesOk, Bool.and_eq_true, decide_eq_true_eq] at h
    obtain ⟨⟨hlo, hdim⟩, hrest⟩ := h
    rw [findFree]
    by_cases hc : lo + d ≤ r.1
    · rw [if_pos hc]
      show removeRange lo ((lo, d) :: r :: rest) = r :: rest
      simp [removeRange]
    · rw [if_neg hc]
      show removeRange (findFree (r.1 + r.2) d rest).1
        (r :: (findFree (r.1 + r.2) d rest).2) = r :: rest
      have hge : r.1 + r.2 ≤ (findFree (r.1 + r.2) d rest).1 := findFree_base_ge hrest
      simp only [removeRange]
      rw [if_neg (by omega), ih hrest]

theorem alookup_removeRange : ∀ {l : List Range} {lo : Nat}, rangesOk lo l = true →
    ∀ i j, alookup j (removeRange i l) = if j = i then none else alookup j l := by
  intro l
  induction l with
  | nil =>
    intro lo _ i j
    by_cases hj : j = i <;> simp [removeRange, alookup, hj]
  | cons r rest ih =>
    intro lo h i j
    simp only [rangesOk, Bool.and_eq_true, decide_eq_true_eq] at h
    obtain ⟨⟨hlo, hdim⟩, hrest⟩ := h
    simp only [removeRange]
    by_cases hri : r.1 = i
    · rw [if_pos hri]
      by_cases hji : j = i
      · rw [if_pos hji]
        exact alookup_none_of_lt (rangesOk_base_ge hrest) (by omega)
      · rw [if_neg hji, alookup_cons, if_neg (by omega)]
    · rw [if_neg hri, alookup_cons]
      by_cases hrj : r.1 = j
      · rw [if_pos hrj, if_neg (by omega), alookup_cons, if_pos hrj]
      · rw [if_neg hrj, ih hrest i j]
        by_cases hji : j = i
        · rw [if_pos hji, if_pos hji]
        · rw [if_neg hji, if_neg hji, alookup_cons, if_neg hrj]

theorem rangesOk_removeRange : ∀ {l : List Range} {lo i : Nat}, rangesOk lo l = true →
    rangesOk lo (removeRange i l) = true := by
  intro l
  induction l with
  | nil => intro lo i _; rfl
  | cons r rest ih =>
    intro lo i h
    simp only [rangesOk, Bool.and_eq_true, decide_eq_true_eq] at h
    obtain ⟨⟨hlo, hdim⟩, hrest⟩ := h
    simp only [removeRange]
    by_cases hri : r.1 = i
    · rw [if_pos hri]
      exact rangesOk_le (by omega) hrest
    · rw [if_neg hri]
      simp only [rangesOk, Bool.and_eq_true, decide_eq_true_eq]
      exact ⟨⟨hlo, hdim⟩, ih hrest⟩

theorem usedEnd_removeRange_le : ∀ (l : List Range) (i : Nat),
    usedEnd (removeRange i l) ≤ usedEnd l := by
  intro l
  induction l with
  | nil => intro i; exact Nat.le_refl _
  | cons r rest ih =>
    intro i
    simp only [removeRange]
    by_cases hri : r.1 = i
    · rw [if_pos hri]
      simp only [usedEnd]
      omega
    · rw [if_neg hri]
      simp only [usedEnd]
      have := ih i
      omega

theorem lookupMove_ge : ∀ {l : List Range} {lo b : Nat},
    (alookup b l).isSome = true → lo ≤ lookupMove b (defragMoves lo l) := by
  intro l
  induction l with
  | nil => intro lo b h; simp [alookup] at h
  | cons r rest ih =>
    intro lo b h
    simp only [defragMoves, lookupMove]
    by_cases hb : r.1 = b
    · rw [if_pos hb]
    · rw [if_neg hb]
      rw [alookup_cons, if_neg hb] at h
      exact Nat.le_trans (Nat.le_add_right _ _) (ih h)

theorem lookupMove_mono : ∀ {l : List Range} {lo0 lo b b' db db' : Nat},
    rangesOk lo0 l = true → alookup b l = some db → alookup b' l = some db' →
    b < b' → lookupMove b (defragMoves lo l) < lookupMove b' (defragMoves lo l) := by
  intro l
  induction l with
  | nil => intro lo0 lo b b' db db' _ hb _ _; simp [alookup] at hb
  | cons r rest ih =>
    intro lo0 lo b b' db db' h hb hb' hlt
    simp only [rangesOk, Bool.and_eq_true, decide_eq_true_eq] at h
    obtain ⟨⟨hlo, hdim⟩, hrest⟩ := h
    simp only [defragMoves, lookupMove]
    by_cases hrb : r.1 = b
    · rw [if_pos hrb]
      have hrb' : ¬ r.1 = b' := by omega
      rw [if_neg hrb']
      rw [alookup_cons, if_neg hrb'] at hb'
      have h1 : lo + r.2 ≤ lookupMove b' (defragMoves (lo + r.2) rest) :=
        lookupMove_ge (by rw [hb']; rfl)
      omega
    · rw [if_neg hrb]
      rw [alookup_cons, if_neg hrb] at hb
      by_cases hrb' : r.1 = b'
      · exfalso
        have := rangesOk_base_ge hrest _ (alookup_mem hb)
        simp only at this
        omega
      · rw [if_neg hrb']
        rw [alookup_cons, if_neg hrb'] at hb'
        exact ih hrest hb hb' hlt

theorem lookupMove_inj {l : List Range} {lo0 b b' db db' : Nat}
    (h : rangesOk lo0 l = true) (hb : alookup b l = some db)
    (hb' : alookup b' l = some db')
    (he : lookupMove b (defragMoves 0 l) = lookupMove b' (defragMoves 0 l)) :
    b = b' := by
  rcases Nat.lt_trichotomy b b' with hlt | heq | hgt
  · exact absurd he (Nat.ne_of_lt (lookupMove_mono h hb hb' hlt))
  · exact heq
  · exact absurd he.symm (Nat.ne_of_lt (lookupMove_mono h hb' hb hgt))

theorem packRanges_eq_map : ∀ {l : List Range} {lo0 lo : Nat}, rangesOk lo0 l = true →
    packRanges lo l = l.map (fun r => (lookupMove r.1 (defragMoves lo l), r.2)) := by
  intro l
  induction l with
  | nil => intro lo0 lo _; rfl
  | cons r rest ih =>
    intro lo0 lo h
    simp only [rangesOk, Bool.and_eq_true, decide_eq_true_eq] at h
    obtain ⟨⟨hlo, hdim⟩, hrest⟩ := h
    simp only [packRanges, defragMoves, List.map_cons]
    rw [show lookupMove r.1 ((r.1, lo) :: defragMoves (lo + r.2) rest) = lo from by
      simp [lookupMove]]
    congr 1
    rw [ih hrest]
    apply List.map_congr_left
    intro q hq
    have hge : r.1 + r.2 ≤ q.1 := rangesOk_base_ge hrest q hq
    have hne : ¬ r.1 = q.1 := by omega
    simp [lookupMove, hne]

theorem alookup_packRanges : ∀ {l : List Range} {lo0 lo b d : Nat},
    rangesOk lo0 l = true → alookup b l = some d →
    alookup (lookupMove b (defragMoves lo l)) (packRanges lo l) = some d := by
  intro l
  induction l with
  | nil => intro lo0 lo b d _ hb; simp [alookup] at hb
  | cons r rest ih =>
    intro lo0 lo b d h hb
    simp only [rangesOk, Bool.and_eq_true, decide_eq_true_eq] at h
    obtain ⟨⟨hlo, hdim⟩, hrest⟩ := h
    simp only [defragMoves, lookupMove, packRanges]
    by_cases hrb : r.1 = b
    · rw [if_pos hrb, alookup_cons, if_pos rfl]
      rw [alookup_cons, if_pos hrb] at hb
      exact hb
    · rw [if_neg hrb]
      rw [alookup_cons, if_neg hrb] at hb
      have h1 : lo + r.2 ≤ lookupMove b (defragMoves (lo + r.2) rest) :=
        lookupMove_ge (by rw [hb]; rfl)
      rw [alookup_cons, if_neg (by simp only; omega)]
      exact ih hrest hb

theorem tiles_packRanges : ∀ {l : List Range} {lo : Nat}, (∀ r ∈ l, 1 ≤ r.2) →
    tiles lo (packRanges lo l) = true := by
  intro l
  induction l with
  | nil => intro lo _; rfl
  | cons r rest ih =>
    intro lo h
    simp only [packRanges, tiles, Bool.and_eq_true, decide_eq_true_eq]
    exact ⟨⟨trivial, h r (List.mem_cons_self _ _)⟩,
      ih (fun q hq => h q (List.mem_cons.mpr (Or.inr hq)))⟩

theorem rangesOk_of_tiles : ∀ {l : List Range} {lo : Nat}, tiles lo l = true →
    rangesOk lo l = true := by
  intro l
  induction l with
  | nil => intro lo _; rfl
  | cons r rest ih =>
    intro lo h
    simp only [tiles, Bool.and_eq_true, decide_eq_true_eq] at h
    simp only [rangesOk, Bool.and_eq_true, decide_eq_true_eq]
    exact ⟨⟨Nat.le_of_eq h.1.1.symm, h.1.2⟩, ih h.2⟩

theorem usedEnd_packRanges_aux : ∀ {l : List Range} {lo : Nat}, l ≠ [] →
    usedEnd (packRanges lo l) = lo + totalDim l := by
  intro l
  induction l with
  | nil => intro lo h; exact absurd rfl h
  | cons r rest ih =>
    intro lo _
    simp only [packRanges, usedEnd, totalDim]
    cases rest with
    | nil => simp [packRanges, usedEnd, totalDim]
    | cons q qs =>
      rw [ih (List.cons_ne_nil q qs)]
      simp only [totalDim]
      omega

theorem usedEnd_packRanges (l : List Range) :
    usedEnd (packRanges 0 l) = totalDim l := by
  cases l with
  | nil => rfl
  | cons r rest =>
    rw [usedEnd_packRanges_aux (List.cons_ne_nil r rest)]
    omega

/-- Modelled from the spec: the state of `fpl::IndexAllocator`
(`fplutil/index_allocator.h`, not in the source tree): a logical address
space `[0, capacity)` with the used ranges recorded in ascending base
order; free ranges are the gaps. -/
structure IndexAllocator where
  capacity : Nat
  used : List Range
deriving Repr, DecidableEq

/-- Modelled from the spec: `IndexAllocator` allocation (spec 4.1,
`Allocate(dimension) → base_index`): take the lowest-indexed free range of
size at least `d`; if none is large enough, extend the capacity and
allocate at the tail. -/
def IndexAllocator.Allocate (d : Nat) (a : IndexAllocator) : Nat × IndexAllocator :=
  let res := findFree 0 d a.used
  (res.1, ⟨max a.capacity (res.1 + d), res.2⟩)

/-- Modelled from the spec: `IndexAllocator` deallocation (spec 4.1,
`Free(base_index)`): return the range based at `i` to the free pool
without shrinking the capacity. -/
def IndexAllocator.Free (i : Nat) (a : IndexAllocator) : IndexAllocator :=
  ⟨a.capacity, removeRange i a.used⟩

/-- Modelled from the spec: `IndexAllocator::Defragment` (spec 4.1): walk
the used ranges in ascending order relocating each down to the lowest
available position, then shrink the capacity to the total used slot
count.  Also returns the `(old_base, new_base)` move-callback pairs. -/
def IndexAllocator.Defragment (a : IndexAllocator) : IndexAllocator × List (Nat × Nat) :=
  (⟨totalDim a.used, packRanges 0 a.used⟩, defragMoves 0 a.used)

/-- Modelled from the spec: `IndexAllocator::CountForIndex` (spec 4.1):
the dimension of the allocation based at `i`, `none` when `i` is not a
currently allocated base. -/
def IndexAllocator.CountForIndex (a : IndexAllocator) (i : Nat) : Option Nat :=
  alookup i a.used

/-- The state of a `MotiveProcessor`: the index allocator
(`index_allocator_`), the back-reference table mapping each live base
index to the id of the `Motivator` bound there (`motivators_`, kept as an
association list because only base indices of live allocations carry a
back-reference), and, for each bound handle id, the index it stores
(the index field a `Motivator` keeps, updated on moves). -/
structure MotiveProcessor where
  alloc : IndexAllocator
  backRefs : List (Nat × Nat)
  handleIdx : List (Nat × Nat)
deriving Repr, DecidableEq

/-- Modelled from the spec: `MotiveProcessor::InitializeMotivator`
(declared in processor.h, body not in the source tree): allocate `d`
slots for handle `h` and bind `h` to the returned base index.
Preconditions (dimension at least 1, `h` not already bound) are contract
obligations of the caller; on violation the model leaves the state
unchanged. -/
def InitializeMotivator (h d : Nat) (s : MotiveProcessor) : MotiveProcessor :=
  if 1 ≤ d ∧ alookup h s.handleIdx = none then
    let res := s.alloc.Allocate d
    ⟨res.2, (res.1, h) :: s.backRefs, (h, res.1) :: s.handleIdx⟩
  else s

/-- Modelled from the spec: `MotiveProcessor::RemoveMotivator` (declared
in processor.h, body not in the source tree): free the range based at
`i`, clear the back-reference, and reset the bound handle's stored index
to the invalid sentinel (modelled by dropping it from `handleIdx`). -/
def RemoveMotivator (i : Nat) (s : MotiveProcessor) : MotiveProcessor :=
  match alookup i s.backRefs with
  | none => s
  | some h => ⟨s.alloc.Free i, aremove i s.backRefs, aremove h s.handleIdx⟩

/-- Modelled from the spec: `MotiveProcessor::TransferMotivator` (declared
in processor.h, body not in the source tree): rebind index `i` from its
current handle to `hNew`, resetting the previous handle's stored index to
the invalid sentinel; nothing else changes. -/
def TransferMotivator (i hNew : Nat) (s : MotiveProcessor) : MotiveProcessor :=
  match alookup i s.backRefs with
  | none => s
  | some h =>
    if alookup hNew s.handleIdx = none then
      ⟨s.alloc, (i, hNew) :: aremove i s.backRefs, (hNew, i) :: aremove h s.handleIdx⟩
    else s

/-- Embedded from processor.h line 175: `MotiveProcessor::Defragment`
delegates to `index_allocator_.Defragment()`; the allocator's move
callbacks relocate the back-reference of each moved base index and update
the stored index of the handle bound there (spec 4.2, move callback). -/
def Defragment (s : MotiveProcessor) : MotiveProcessor :=
  let res := s.alloc.Defragment
  ⟨res.1, s.backRefs.map (fun p => (lookupMove p.1 res.2, p.2)),
    s.handleIdx.map (fun q => (q.1, lookupMove q.2 res.2))⟩

/-- Embedded from processor.h lines 135-137: `MotiveProcessor::Dimensions`
returns `index_allocator_.CountForIndex(index)`. -/
def Dimensions (s : MotiveProcessor) (index : Nat) : Option Nat :=
  s.alloc.CountForIndex index

/-- Modelled from the spec: `MotiveProcessor::ValidIndex` (declared in
processor.h, body not in the source tree): true iff `index` is a
currently allocated base index (delegates to allocator bookkeeping,
spec 4.2). -/
def ValidIndexP (s : MotiveProcessor) (index : Nat) : Bool :=
  (s.alloc.CountForIndex index).isSome

/-- The operations of the subsystem (spec 4.3 lifecycle entry points plus
defragmentation). -/
inductive Op where
  | init (h d : Nat)
  | remove (i : Nat)
  | transfer (i h : Nat)
  | defrag
deriving Repr, DecidableEq

def applyOp : Op → MotiveProcessor → MotiveProcessor
  | Op.init h d, s => InitializeMotivator h d s
  | Op.remove i, s => RemoveMotivator i s
  | Op.transfer i h, s => TransferMotivator i h s
  | Op.defrag, s => Defragment s

/-- The freshly constructed processor: empty allocator, no bindings. -/
def initState : MotiveProcessor := ⟨⟨0, []⟩, [], []⟩

/-- The state reached by applying the listed operations (rightmost first)
to a freshly constructed processor. -/
def run : List Op → MotiveProcessor
  | [] => initState
  | o :: ops => applyOp o (run ops)

/-- The internal-state consistency invariant (spec 4.2 and
`VerifyInternalState`): the used ranges are ascending, disjoint, of
positive dimension and inside the capacity; back-reference and
handle-index keys are unique; every live base index is bound; every
back-reference points at a live base whose bound handle stores exactly
that index; and every bound handle's stored index is bound back to it. -/
def wf (s : MotiveProcessor) : Bool :=
  rangesOk 0 s.alloc.used &&
  decide (usedEnd s.alloc.used ≤ s.alloc.capacity) &&
  keysNodup s.backRefs &&
  keysNodup s.handleIdx &&
  s.alloc.used.all (fun r => (alookup r.1 s.backRefs).isSome) &&
  s.backRefs.all (fun p => (alookup p.1 s.alloc.used).isSome &&
    (alookup p.2 s.handleIdx == some p.1)) &&
  s.handleIdx.all (fun q => alookup q.2 s.backRefs == some q.1)

theorem wf_iff (s : MotiveProcessor) : wf s = true ↔
    (rangesOk 0 s.alloc.used = true ∧
     usedEnd s.alloc.used ≤ s.alloc.capacity ∧
     keysNodup s.backRefs = true ∧
     keysNodup s.handleIdx = true ∧
     (∀ r ∈ s.alloc.used, (alookup r.1 s.backRefs).isSome = true) ∧
     (∀ p ∈ s.backRefs, (alookup p.1 s.alloc.used).isSome = true ∧
        alookup p.2 s.handleIdx = some p.1) ∧
     (∀ q ∈ s.handleIdx, alookup q.2 s.backRefs = some q.1)) := by
  simp only [wf, Bool.and_eq_true, decide_eq_true_eq, List.all_eq_true,
    beq_iff_eq, and_assoc]

theorem alookup_none_of_forall : ∀ {l : List (Nat × Nat)} {k : Nat},
    (∀ p ∈ l, ¬ p.1 = k) → alookup k l = none := by
  intro l k h
  cases hc : alookup k l with
  | none => rfl
  | some v => exact absurd rfl (h _ (alookup_mem hc))

theorem wf_init (h d : Nat) (s : MotiveProcessor) (hwf : wf s = true) :
    wf (InitializeMotivator h d s) = true := by
  unfold InitializeMotivator
  by_cases hpre : 1 ≤ d ∧ alookup h s.handleIdx = none
  · rw [if_pos hpre]
    obtain ⟨hd, hub⟩ := hpre
    rw [wf_iff] at hwf
    obtain ⟨hok, hcap, hbnd, hhnd, hlive, hbr, hhi⟩ := hwf
    have hifresh : alookup (findFree 0 d s.alloc.used).1 s.alloc.used = none :=
      findFree_fresh hok hd
    have hib : alookup (findFree 0 d s.alloc.used).1 s.backRefs = none := by
      apply alookup_none_of_forall
      intro p hp hpk
      have h1 := (hbr p hp).1
      rw [hpk, hifresh] at h1
      simp at h1
    show wf ⟨⟨max s.alloc.capacity ((findFree 0 d s.alloc.used).1 + d),
        (findFree 0 d s.alloc.used).2⟩,
      ((findFree 0 d s.alloc.used).1, h) :: s.backRefs,
      (h, (findFree 0 d s.alloc.used).1) :: s.handleIdx⟩ = true
    rw [wf_iff]
    refine ⟨?_, ?_, ?_, ?_, ?_, ?_, ?_⟩
    · exact findFree_rangesOk hok hd
    · show usedEnd (findFree 0 d s.alloc.used).2 ≤
        max s.alloc.capacity ((findFree 0 d s.alloc.used).1 + d)
      rw [findFree_usedEnd]
      omega
    · exact keysNodup_cons hib hbnd
    · exact keysNodup_cons hub hhnd
    · intro r hr
      show (alookup r.1 (((findFree 0 d s.alloc.used).1, h) :: s.backRefs)).isSome = true
      rw [alookup_cons]
      by_cases hri : (findFree 0 d s.alloc.used).1 = r.1
      · rw [if_pos hri]; rfl
      · rw [if_neg hri]
        have h1 : (alookup r.1 (findFree 0 d s.alloc.used).2).isSome = true :=
          alookup_isSome_of_mem hr
        rw [findFree_alookup hok r.1,
          if_neg (fun hh => hri hh.symm)] at h1
        cases hc : alookup r.1 s.alloc.used with
        | none => rw [hc] at h1; simp at h1
        | some v => exact hlive (r.1, v) (alookup_mem hc)
    · intro p hp
      rcases List.mem_cons.mp hp with hm | hm
      · subst hm
        constructor
        · show (alookup (findFree 0 d s.alloc.used).1 (findFree 0 d s.alloc.used).2).isSome = true
          rw [findFree_alookup hok, if_pos rfl]
          rfl
        · show alookup h ((h, (findFree 0 d s.alloc.used).1) :: s.handleIdx) =
            some (findFree 0 d s.alloc.used).1
          rw [alookup_cons, if_pos rfl]
      · constructor
        · show (alookup p.1 (findFree 0 d s.alloc.used).2).isSome = true
          rw [findFree_alookup hok]
          by_cases hpi : p.1 = (findFree 0 d s.alloc.used).1
          · rw [if_pos hpi]; rfl
          · rw [if_neg hpi]; exact (hbr p hm).1
        · have h2 := (hbr p hm).2
          have hne : ¬ h = p.2 := by
            intro hh
            rw [← hh, hub] at h2
            exact Option.noConfusion h2
          show alookup p.2 ((h, (findFree 0 d s.alloc.used).1) :: s.handleIdx) = some p.1
          rw [alookup_cons, if_neg hne]
          exact h2
    · intro q hq
      rcases List.mem_cons.mp hq with hm | hm
      · subst hm
        show alookup (findFree 0 d s.alloc.used).1
          (((findFree 0 d s.alloc.used).1, h) :: s.backRefs) = some h
        rw [alookup_cons, if_pos rfl]
      · have h3 := hhi q hm
        have hne : ¬ (findFree 0 d s.alloc.used).1 = q.2 := by
          intro hh
          rw [← hh, hib] at h3
          exact Option.noConfusion h3
        show alookup q.2 (((findFree 0 d s.alloc.used).1, h) :: s.backRefs) = some q.1
        rw [alookup_cons, if_neg hne]
        exact h3
  · rw [if_neg hpre]
    exact hwf

theorem wf_remove (i : Nat) (s : MotiveProcessor) (hwf : wf s = true) :
    wf (RemoveMotivator i s) = true := by
  unfold RemoveMotivator
  cases hc : alookup i s.backRefs with
  | none => exact hwf
  | some h =>
    rw [wf_iff] at hwf
    obtain ⟨hok, hcap, hbnd, hhnd, hlive, hbr, hhi⟩ := hwf
    have hbm := alookup_mem hc
    have hhi_i : alookup h s.handleIdx = some i := (hbr _ hbm).2
    show wf ⟨⟨s.alloc.capacity, removeRange i s.alloc.used⟩,
      aremove i s.backRefs, aremove h s.handleIdx⟩ = true
    rw [wf_iff]
    refine ⟨?_, ?_, ?_, ?_, ?_, ?_, ?_⟩
    · exact rangesOk_removeRange hok
    · exact Nat.le_trans (usedEnd_removeRange_le _ _) hcap
    · exact keysNodup_aremove hbnd
    · exact keysNodup_aremove hhnd
    · intro r hr
      have h1 : (alookup r.1 (removeRange i s.alloc.used)).isSome = true :=
        alookup_isSome_of_mem hr
      rw [alookup_removeRange hok i r.1] at h1
      by_cases hri : r.1 = i
      · rw [if_pos hri] at h1; simp at h1
      · rw [if_neg hri] at h1
        show (alookup r.1 (aremove i s.backRefs)).isSome = true
        rw [alookup_aremove, if_neg hri]
        cases hc2 : alookup r.1 s.alloc.used with
        | none => rw [hc2] at h1; simp at h1
        | some v => exact hlive (r.1, v) (alookup_mem hc2)
    · intro p hp
      obtain ⟨hpm, hpne⟩ := mem_aremove hp
      constructor
      · show (alookup p.1 (removeRange i s.alloc.used)).isSome = true
        rw [alookup_removeRange hok i p.1, if_neg hpne]
        exact (hbr p hpm).1
      · have h2 := (hbr p hpm).2
        have hne : ¬ p.2 = h := by
          intro hh
          rw [hh, hhi_i] at h2
          injection h2 with h3
          exact hpne h3.symm
        show alookup p.2 (aremove h s.handleIdx) = some p.1
        rw [alookup_aremove, if_neg hne]
        exact h2
    · intro q hq
      obtain ⟨hqm, hqne⟩ := mem_aremove hq
      have h3 := hhi q hqm
      have hne : ¬ q.2 = i := by
        intro hh
        rw [hh, hc] at h3
        injection h3 with h4
        exact hqne h4.symm
      show alookup q.2 (aremove i s.backRefs) = some q.1
      rw [alookup_aremove, if_neg hne]
      exact h3

theorem wf_transfer (i hNew : Nat) (s : MotiveProcessor) (hwf : wf s = true) :
    wf (TransferMotivator i hNew s) = true := by
  unfold TransferMotivator
  cases hc : alookup i s.backRefs with
  | none => exact hwf
  | some h =>
    show wf (if alookup hNew s.handleIdx = none then
      ⟨s.alloc, (i, hNew) :: aremove i s.backRefs,
        (hNew, i) :: aremove h s.handleIdx⟩ else s) = true
    by_cases hub : alookup hNew s.handleIdx = none
    · rw [if_pos hub]
      rw [wf_iff] at hwf
      obtain ⟨hok, hcap, hbnd, hhnd, hlive, hbr, hhi⟩ := hwf
      have hbm := alookup_mem hc
      have hhi_i : alookup h s.handleIdx = some i := (hbr _ hbm).2
      have hlive_i : (alookup i s.alloc.used).isSome = true := (hbr _ hbm).1
      show wf ⟨s.alloc, (i, hNew) :: aremove i s.backRefs,
        (hNew, i) :: aremove h s.handleIdx⟩ = true
      rw [wf_iff]
      refine ⟨hok, hcap, ?_, ?_, ?_, ?_, ?_⟩
      · refine keysNodup_cons ?_ (keysNodup_aremove hbnd)
        rw [alookup_aremove, if_pos rfl]
      · refine keysNodup_cons ?_ (keysNodup_aremove hhnd)
        rw [alookup_aremove]
        by_cases hnh : hNew = h
        · rw [if_pos hnh]
        · rw [if_neg hnh]; exact hub
      · intro r hr
        show (alookup r.1 ((i, hNew) :: aremove i s.backRefs)).isSome = true
        rw [alookup_cons]
        by_cases hri : i = r.1
        · rw [if_pos hri]; rfl
        · rw [if_neg hri, alookup_aremove, if_neg (fun hh => hri hh.symm)]
          exact hlive r hr
      · intro p hp
        rcases List.mem_cons.mp hp with hm | hm
        · subst hm
          refine ⟨hlive_i, ?_⟩
          show alookup hNew ((hNew, i) :: aremove h s.handleIdx) = some i
          rw [alookup_cons, if_pos rfl]
        · obtain ⟨hpm, hpne⟩ := mem_aremove hm
          refine ⟨(hbr p hpm).1, ?_⟩
          have h2 := (hbr p hpm).2
          have hne1 : ¬ hNew = p.2 := by
            intro hh
            rw [← hh, hub] at h2
            exact Option.noConfusion h2
          have hne2 : ¬ p.2 = h := by
            intro hh
            rw [hh, hhi_i] at h2
            injection h2 with h3
            exact hpne h3.symm
          show alookup p.2 ((hNew, i) :: aremove h s.handleIdx) = some p.1
          rw [alookup_cons, if_neg hne1, alookup_aremove, if_neg hne2]
          exact h2
      · intro q hq
        rcases List.mem_cons.mp hq with hm | hm
        · subst hm
          show alookup i ((i, hNew) :: aremove i s.backRefs) = some hNew
          rw [alookup_cons, if_pos rfl]
        · obtain ⟨hqm, hqne⟩ := mem_aremove hm
          have h3 := hhi q hqm
          have hne : ¬ q.2 = i := by
            intro hh
            rw [hh, hc] at h3
            injection h3 with h4
            exact hqne h4.symm
          show alookup q.2 ((i, hNew) :: aremove i s.backRefs) = some q.1
          rw [alookup_cons, if_neg (fun hh => hne hh.symm), alookup_aremove,
            if_neg hne]
          exact h3
    · rw [if_neg hub]
      exact hwf

theorem alookup_map_lookupMove (M : List (Nat × Nat)) :
    ∀ {l : List (Nat × Nat)} {k : Nat},
    (∀ p ∈ l, lookupMove p.1 M = lookupMove k M → p.1 = k) →
    alookup (lookupMove k M) (l.map (fun p => (lookupMove p.1 M, p.2))) =
      alookup k l := by
  intro l
  induction l with
  | nil => intro k _; rfl
  | cons p rest ih =>
    intro k hinj
    simp only [List.map_cons, alookup_cons]
    by_cases hfk : lookupMove p.1 M = lookupMove k M
    · rw [if_pos hfk, if_pos (hinj p (List.mem_cons_self _ _) hfk)]
    · have hne : ¬ p.1 = k := fun hh => hfk (by rw [hh])
      rw [if_neg hfk, if_neg hne]
      exact ih (fun q hq => hinj q (List.mem_cons.mpr (Or.inr hq)))

theorem keysNodup_map_lookupMove (M : List (Nat × Nat)) :
    ∀ {l : List (Nat × Nat)},
    (∀ p ∈ l, ∀ q ∈ l, lookupMove p.1 M = lookupMove q.1 M → p.1 = q.1) →
    keysNodup l = true →
    keysNodup (l.map (fun p => (lookupMove p.1 M, p.2))) = true := by
  intro l
  induction l with
  | nil => intro _ _; rfl
  | cons p rest ih =>
    intro hinj hnd
    simp only [keysNodup, Bool.and_eq_true, beq_iff_eq] at hnd
    simp only [List.map_cons, keysNodup, Bool.and_eq_true, beq_iff_eq]
    constructor
    · show alookup (lookupMove p.1 M)
        (rest.map (fun q => (lookupMove q.1 M, q.2))) = none
      rw [alookup_map_lookupMove M (fun q hq he =>
        hinj q (List.mem_cons.mpr (Or.inr hq)) p (List.mem_cons_self _ _) he)]
      exact hnd.1
    · exact ih (fun a ha b hb => hinj a (List.mem_cons.mpr (Or.inr ha))
        b (List.mem_cons.mpr (Or.inr hb))) hnd.2

theorem alookup_map_snd_lookupMove (M : List (Nat × Nat)) :
    ∀ (l : List (Nat × Nat)) (k : Nat),
    alookup k (l.map (fun q => (q.1, lookupMove q.2 M))) =
      Option.map (fun x => lookupMove x M) (alookup k l) := by
  intro l
  induction l with
  | nil => intro k; rfl
  | cons q rest ih =>
    intro k
    simp only [List.map_cons, alookup_cons]
    by_cases hk : q.1 = k
    · rw [if_pos hk, if_pos hk]; rfl
    · rw [if_neg hk, if_neg hk]; exact ih k

theorem keysNodup_map_snd_lookupMove (M : List (Nat × Nat)) :
    ∀ {l : List (Nat × Nat)}, keysNodup l = true →
    keysNodup (l.map (fun q => (q.1, lookupMove q.2 M))) = true := by
  intro l
  induction l with
  | nil => intro _; rfl
  | cons q rest ih =>
    intro hnd
    simp only [keysNodup, Bool.and_eq_true, beq_iff_eq] at hnd
    simp only [List.map_cons, keysNodup, Bool.and_eq_true, beq_iff_eq]
    constructor
    · show alookup q.1 (rest.map (fun p => (p.1, lookupMove p.2 M))) = none
      rw [alookup_map_snd_lookupMove, hnd.1]
      rfl
    · exact ih hnd.2

theorem wf_defrag (s : MotiveProcessor) (hwf : wf s = true) :
    wf (Defragment s) = true := by
  rw [wf_iff] at hwf
  obtain ⟨hok, hcap, hbnd, hhnd, hlive, hbr, hhi⟩ := hwf
  have hdims : ∀ r ∈ s.alloc.used, 1 ≤ r.2 := rangesOk_dim_pos hok
  show wf ⟨⟨totalDim s.alloc.used, packRanges 0 s.alloc.used⟩,
    s.backRefs.map (fun p => (lookupMove p.1 (defragMoves 0 s.alloc.used), p.2)),
    s.handleIdx.map (fun q => (q.1, lookupMove q.2 (defragMoves 0 s.alloc.used)))⟩ = true
  rw [wf_iff]
  refine ⟨?_, ?_, ?_, ?_, ?_, ?_, ?_⟩
  · exact rangesOk_of_tiles (tiles_packRanges hdims)
  · show usedEnd (packRanges 0 s.alloc.used) ≤ totalDim s.alloc.used
    rw [usedEnd_packRanges]
  · refine keysNodup_map_lookupMove _ ?_ hbnd
    intro p hp q hq he
    obtain ⟨dp, hdp⟩ := Option.isSome_iff_exists.mp ((hbr p hp).1)
    obtain ⟨dq, hdq⟩ := Option.isSome_iff_exists.mp ((hbr q hq).1)
    exact lookupMove_inj hok hdp hdq he
  · exact keysNodup_map_snd_lookupMove _ hhnd
  · intro r hr
    rw [packRanges_eq_map hok] at hr
    rcases List.mem_map.mp hr with ⟨r0, hr0, rfl⟩
    obtain ⟨d0, hd0⟩ := Option.isSome_iff_exists.mp (alookup_isSome_of_mem hr0)
    have hinj0 : ∀ p ∈ s.backRefs,
        lookupMove p.1 (defragMoves 0 s.alloc.used) =
          lookupMove r0.1 (defragMoves 0 s.alloc.used) → p.1 = r0.1 := by
      intro p hp he
      obtain ⟨dp, hdp⟩ := Option.isSome_iff_exists.mp ((hbr p hp).1)
      exact lookupMove_inj hok hdp hd0 he
    show (alookup (lookupMove r0.1 (defragMoves 0 s.alloc.used))
      (s.backRefs.map
        (fun p => (lookupMove p.1 (defragMoves 0 s.alloc.used), p.2)))).isSome = true
    rw [alookup_map_lookupMove _ hinj0]
    exact hlive r0 hr0
  · intro p' hp'
    rcases List.mem_map.mp hp' with ⟨p, hp, rfl⟩
    obtain ⟨dp, hdp⟩ := Option.isSome_iff_exists.mp ((hbr p hp).1)
    constructor
    · show (alookup (lookupMove p.1 (defragMoves 0 s.alloc.used))
        (packRanges 0 s.alloc.used)).isSome = true
      rw [alookup_packRanges hok hdp]
      rfl
    · show alookup p.2 (s.handleIdx.map
        (fun q => (q.1, lookupMove q.2 (defragMoves 0 s.alloc.used)))) =
        some (lookupMove p.1 (defragMoves 0 s.alloc.used))
      rw [alookup_map_snd_lookupMove, (hbr p hp).2]
      rfl
  · intro q' hq'
    rcases List.mem_map.mp hq' with ⟨q, hq, rfl⟩
    have h3 := hhi q hq
    obtain ⟨dq, hdq⟩ := Option.isSome_iff_exists.mp ((hbr _ (alookup_mem h3)).1)
    have hinjq : ∀ p ∈ s.backRefs,
        lookupMove p.1 (defragMoves 0 s.alloc.used) =
          lookupMove q.2 (defragMoves 0 s.alloc.used) → p.1 = q.2 := by
      intro p hp he
      obtain ⟨dp, hdp⟩ := Option.isSome_iff_exists.mp ((hbr p hp).1)
      exact lookupMove_inj hok hdp hdq he
    show alookup (lookupMove q.2 (defragMoves 0 s.alloc.used))
      (s.backRefs.map
        (fun p => (lookupMove p.1 (defragMoves 0 s.alloc.used), p.2))) = some q.1
    rw [alookup_map_lookupMove _ hinjq]
    exact h3

theorem wf_applyOp (o : Op) (s : MotiveProcessor) (hwf : wf s = true) :
    wf (applyOp o s) = true := by
  cases o with
  | init h d => exact wf_init h d s hwf
  | remove i => exact wf_remove i s hwf
  | transfer i h => exact wf_transfer i h s hwf
  | defrag => exact wf_defrag s hwf

theorem wf_run (ops : List Op) : wf (run ops) = true := by
  induction ops with
  | nil => rfl
  | cons o rest ih => exact wf_applyOp o (run rest) ih

/-- Two ranges do not overlap: one ends at or before the other begins. -/
def rangesDisjoint (r r' : Range) : Prop :=
  r.1 + r.2 ≤ r'.1 ∨ r'.1 + r'.2 ≤ r.1

theorem rangesOk_pairwise : ∀ {l : List Range} {lo : Nat}, rangesOk lo l = true →
    l.Pairwise rangesDisjoint := by
  intro l
  induction l with
  | nil => intro lo _; exact List.Pairwise.nil
  | cons r rest ih =>
    intro lo h
    simp only [rangesOk, Bool.and_eq_true, decide_eq_true_eq] at h
    obtain ⟨⟨hlo, hdim⟩, hrest⟩ := h
    refine List.Pairwise.cons ?_ (ih hrest)
    intro r' hr'
    exact Or.inl (rangesOk_base_ge hrest r' hr')

theorem lookupMove_le : ∀ {l : List Range} {lo lo' b db : Nat},
    rangesOk lo l = true → lo' ≤ lo → alookup b l = some db →
    lookupMove b (defragMoves lo' l) ≤ b := by
  intro l
  induction l with
  | nil => intro lo lo' b db _ _ hb; simp [alookup] at hb
  | cons r rest ih =>
    intro lo lo' b db h hle hb
    simp only [rangesOk, Bool.and_eq_true, decide_eq_true_eq] at h
    obtain ⟨⟨hlo, hdim⟩, hrest⟩ := h
    simp only [defragMoves, lookupMove]
    by_cases hrb : r.1 = b
    · rw [if_pos hrb]
      omega
    · rw [if_neg hrb]
      rw [alookup_cons, if_neg hrb] at hb
      exact ih hrest (by omega) hb

/-- Where a live base index is tracked to by operation `o`: identity for
all operations except defragmentation, which relocates it by the move
map. -/
def trackIndex : Op → MotiveProcessor → Nat → Nat
  | Op.defrag, s, i => lookupMove i (defragMoves 0 s.alloc.used)
  | _, _, i => i

/-- Whether operation `o` leaves the allocation based at `i` alive
(everything except removing `i` itself). -/
def survives : Op → Nat → Bool
  | Op.remove j, i => decide (¬ j = i)
  | _, _ => true

/-- Embedded from processor.h lines 110-112, the body of
`MotiveProcessor::ValidMotivator`:
`return ValidIndex(index) && motivators_[index] == motivator;`.
`ValidIndex` is a parameter because its body lives in the missing
processor.cpp; the `motivators_` vector is a list of nullable `Motivator`
pointers (ids), read totally via `getD` with a null default. -/
def ValidMotivator (ValidIndex : Nat → Bool) (motivators : List (Option Nat))
    (index : Nat) (motivator : Option Nat) : Bool :=
  ValidIndex index && (motivators.getD index none == motivator)

/-- The component triple of `mathfu::vec3`, abstract over the scalar
type since no arithmetic is performed on it. -/
structure Vec3 (α : Type) where
  x : α
  y : α
  z : α

/-- Embedded from processor.h lines 257-262, the default implementation of
`MotiveProcessorMatrix4f::ChildValue3f`:
`return mathfu::vec3(ChildValue1f(index, child_index),
ChildValue1f(index, child_index + 1), ChildValue1f(index, child_index + 2));`.
`ChildValue1f` is a parameter because it is pure virtual. -/
def ChildValue3f {α : Type} (ChildValue1f : Nat → Nat → α)
    (index child_index : Nat) : Vec3 α :=
  ⟨ChildValue1f index child_index,
   ChildValue1f index (child_index + 1),
   ChildValue1f index (child_index + 2)⟩

/-- Claim C1: after `Defragment()` completes, the relative ascending order
of the live entries (compared by their pre-defragment base indices) is
identical to their ascending order post-defragment — entries never swap
order, they only shift down to lower indices.  Formally: the used-range
list after defragmentation is exactly the old list with each base
relocated by the move map; the relocation map is strictly monotone on
live base indices (so order is preserved); and it never moves a live
base up. -/
theorem C1_defragment_preserves_order (s : MotiveProcessor) (hwf : wf s = true) :
    (Defragment s).alloc.used =
      s.alloc.used.map
        (fun r => (lookupMove r.1 (defragMoves 0 s.alloc.used), r.2)) ∧
    (∀ b db b' db', alookup b s.alloc.used = some db →
      alookup b' s.alloc.used = some db' → b < b' →
      lookupMove b (defragMoves 0 s.alloc.used) <
        lookupMove b' (defragMoves 0 s.alloc.used)) ∧
    (∀ b db, alookup b s.alloc.used = some db →
      lookupMove b (defragMoves 0 s.alloc.used) ≤ b) := by
  have hok : rangesOk 0 s.alloc.used = true := ((wf_iff s).mp hwf).1
  refine ⟨?_, ?_, ?_⟩
  · show packRanges 0 s.alloc.used = _
    exact packRanges_eq_map hok
  · intro b db b' db' hb hb' hlt
    exact lookupMove_mono hok hb hb' hlt
  · intro b db hb
    exact lookupMove_le hok (Nat.le_refl 0) hb

theorem C1_witness :
    wf (InitializeMotivator 8 1 (InitializeMotivator 7 2 initState)) = true ∧
    (Defragment (InitializeMotivator 8 1 (InitializeMotivator 7 2 initState))).alloc.used =
      (InitializeMotivator 8 1 (InitializeMotivator 7 2 initState)).alloc.used.map
        (fun r => (lookupMove r.1 (defragMoves 0
          (InitializeMotivator 8 1 (InitializeMotivator 7 2 initState)).alloc.used), r.2)) :=
  ⟨by decide, (C1_defragment_preserves_order
    (InitializeMotivator 8 1 (InitializeMotivator 7 2 initState)) (by decide)).1⟩

/-- Claim C2: after `Defragment()` completes, the live allocations are
packed with no gaps: the used ranges tile `[0, total_used_slots)`
contiguously (no free range below the bound), the maximum of
`base + dimension` over live allocations equals the total number of used
slots, and that total is the new capacity. -/
theorem C2_defragment_compacts (s : MotiveProcessor) (hwf : wf s = true) :
    tiles 0 (Defragment s).alloc.used = true ∧
    usedEnd (Defragment s).alloc.used = (Defragment s).alloc.capacity ∧
    (Defragment s).alloc.capacity = totalDim s.alloc.used := by
  have hok : rangesOk 0 s.alloc.used = true := ((wf_iff s).mp hwf).1
  refine ⟨tiles_packRanges (rangesOk_dim_pos hok), ?_, rfl⟩
  show usedEnd (packRanges 0 s.alloc.used) = totalDim s.alloc.used
  exact usedEnd_packRanges _

theorem C2_witness :
    wf (InitializeMotivator 8 1 (InitializeMotivator 7 2 initState)) = true ∧
    tiles 0 (Defragment
      (InitializeMotivator 8 1 (InitializeMotivator 7 2 initState))).alloc.used = true :=
  ⟨by decide, (C2_defragment_compacts
    (InitializeMotivator 8 1 (InitializeMotivator 7 2 initState)) (by decide)).1⟩

/-- Claim C3: for every index `i` and handle `h`, the stale-handle query
`ValidMotivator` returns true if and only if `ValidIndex(i)` is true and
the back-reference stored at index `i` equals `h`. -/
theorem C3_valid_motivator_iff (ValidIndex : Nat → Bool)
    (motivators : List (Option Nat)) (index : Nat) (motivator : Option Nat) :
    ValidMotivator ValidIndex motivators index motivator = true ↔
      (ValidIndex index = true ∧ motivators.getD index none = motivator) := by
  simp [ValidMotivator]

/-- Claim C9: for every index `i` with `ValidIndex i = false` (including
indices outside the bounds of the back-reference array) and every handle
`h`, `ValidMotivator` returns false for every possible content of the
`motivators_` array — the conjunction short-circuits, so the result never
depends on the array and no out-of-bounds access is possible. -/
theorem C9_invalid_index_short_circuit (ValidIndex : Nat → Bool) (index : Nat)
    (motivator : Option Nat) (hinv : ValidIndex index = false) :
    ∀ motivators : List (Option Nat),
      ValidMotivator ValidIndex motivators index motivator = false := by
  intro motivators
  simp [ValidMotivator, hinv]

theorem C9_witness :
    ValidMotivator (fun _ => false) [] 5 (some 3) = false :=
  C9_invalid_index_short_circuit (fun _ => false) 5 (some 3) rfl []

/-- Claim C10: the default implementation of
`MotiveProcessorMatrix4f::ChildValue3f` returns, for every index `i` and
child index `c`, exactly the 3-vector whose components are
`ChildValue1f(i, c)`, `ChildValue1f(i, c + 1)` and `ChildValue1f(i, c + 2)`,
in that order. -/
theorem C10_child_value_3f {α : Type} (ChildValue1f : Nat → Nat → α)
    (index child_index : Nat) :
    (ChildValue3f ChildValue1f index child_index).x =
        ChildValue1f index child_index ∧
    (ChildValue3f ChildValue1f index child_index).y =
        ChildValue1f index (child_index + 1) ∧
    (ChildValue3f ChildValue1f index child_index).z =
        ChildValue1f index (child_index + 2) :=
  ⟨rfl, rfl, rfl⟩

/-- Claim C5: every operation of the subsystem preserves the two-way
single-owner invariant `wf`; and `wf` states that for every live base
index the back-reference at that index is a handle whose stored index is
exactly that base, and every bound handle's stored index is a base whose
back-reference is that handle. -/
theorem C5_invariant_preserved :
    (∀ o s, wf s = true → wf (applyOp o s) = true) ∧
    (∀ s, wf s = true →
      (∀ i h, alookup i s.backRefs = some h →
        (alookup i s.alloc.used).isSome = true ∧
          alookup h s.handleIdx = some i) ∧
      (∀ h i, alookup h s.handleIdx = some i → alookup i s.backRefs = some h) ∧
      (∀ r ∈ s.alloc.used, (alookup r.1 s.backRefs).isSome = true)) := by
  constructor
  · exact fun o s hwf => wf_applyOp o s hwf
  · intro s hwf
    rw [wf_iff] at hwf
    obtain ⟨hok, hcap, hbnd, hhnd, hlive, hbr, hhi⟩ := hwf
    refine ⟨?_, ?_, hlive⟩
    · intro i h hih
      exact hbr _ (alookup_mem hih)
    · intro h i hh
      exact hhi _ (alookup_mem hh)

theorem C5_witness :
    wf (applyOp (Op.init 7 2) initState) = true :=
  C5_invariant_preserved.1 (Op.init 7 2) initState (by decide)

/-- Claim C6: at every reachable state, the slot ranges
`[base, base + dimension)` of simultaneously live allocations are
pairwise disjoint; in particular this holds after every allocate, free
and defragment operation, since those are exactly the operations of
`run`. -/
theorem C6_no_overlap (ops : List Op) :
    ((run ops).alloc.used).Pairwise rangesDisjoint :=
  rangesOk_pairwise (((wf_iff (run ops)).mp (wf_run ops)).1)

/-- Claim C7: `TransferMotivator(index, new_handle)`, with `index`
currently bound, rebinds `index` from its current handle to `new_handle`
(resetting the previous handle's stored index to the invalid sentinel,
modelled as the handle no longer storing any index) and changes nothing
else: the allocator's free/used bookkeeping is untouched, every other
back-reference entry is unchanged, and every other handle's stored index
is unchanged. -/
theorem C7_transfer_rebinds_only (s : MotiveProcessor) (i h hNew : Nat)
    (hwf : wf s = true) (hbound : alookup i s.backRefs = some h)
    (hub : alookup hNew s.handleIdx = none) :
    (TransferMotivator i hNew s).alloc = s.alloc ∧
    alookup i (TransferMotivator i hNew s).backRefs = some hNew ∧
    (∀ j, ¬ j = i → alookup j (TransferMotivator i hNew s).backRefs =
      alookup j s.backRefs) ∧
    alookup hNew (TransferMotivator i hNew s).handleIdx = some i ∧
    alookup h (TransferMotivator i hNew s).handleIdx = none ∧
    (∀ g, ¬ g = h → ¬ g = hNew →
      alookup g (TransferMotivator i hNew s).handleIdx =
        alookup g s.handleIdx) := by
  rw [wf_iff] at hwf
  obtain ⟨hok, hcap, hbnd, hhnd, hlive, hbr, hhi⟩ := hwf
  have hhi_i : alookup h s.handleIdx = some i := (hbr _ (alookup_mem hbound)).2
  have hne : ¬ h = hNew := by
    intro hh
    rw [hh, hub] at hhi_i
    exact Option.noConfusion hhi_i
  have hsval : TransferMotivator i hNew s =
      ⟨s.alloc, (i, hNew) :: aremove i s.backRefs,
        (hNew, i) :: aremove h s.handleIdx⟩ := by
    unfold TransferMotivator
    rw [hbound]
    exact if_pos hub
  rw [hsval]
  refine ⟨rfl, ?_, ?_, ?_, ?_, ?_⟩
  · show alookup i ((i, hNew) :: aremove i s.backRefs) = some hNew
    rw [alookup_cons, if_pos rfl]
  · intro j hji
    show alookup j ((i, hNew) :: aremove i s.backRefs) = alookup j s.backRefs
    rw [alookup_cons, if_neg (fun hh => hji hh.symm), alookup_aremove, if_neg hji]
  · show alookup hNew ((hNew, i) :: aremove h s.handleIdx) = some i
    rw [alookup_cons, if_pos rfl]
  · show alookup h ((hNew, i) :: aremove h s.handleIdx) = none
    rw [alookup_cons, if_neg (fun hh => hne hh.symm), alookup_aremove,
      if_pos rfl]
  · intro g hg1 hg2
    show alookup g ((hNew, i) :: aremove h s.handleIdx) = alookup g s.handleIdx
    rw [alookup_cons, if_neg (fun hh => hg2 hh.symm), alookup_aremove,
      if_neg hg1]

theorem C7_witness :
    (TransferMotivator 0 9 (InitializeMotivator 7 2 initState)).alloc =
      (InitializeMotivator 7 2 initState).alloc ∧
    alookup 0 (TransferMotivator 0 9
      (InitializeMotivator 7 2 initState)).backRefs = some 9 ∧
    alookup 7 (TransferMotivator 0 9
      (InitializeMotivator 7 2 initState)).handleIdx = none := by
  obtain ⟨h1, h2, h3, h4, h5, h6⟩ := C7_transfer_rebinds_only
    (InitializeMotivator 7 2 initState) 0 7 9 (by decide) (by decide) (by decide)
  exact ⟨h1, h2, h5⟩

/-- Claim C8: allocating `d` slots, immediately freeing the returned base
index, and allocating `d` slots again (with no other allocation
intervening) returns the allocator to its previous used set and yields
the same base index — first-fit reuse of the freed range. -/
theorem C8_alloc_free_alloc (a : IndexAllocator) (d : Nat)
    (hok : rangesOk 0 a.used = true) :
    ((a.Allocate d).2.Free (a.Allocate d).1).used = a.used ∧
    (((a.Allocate d).2.Free (a.Allocate d).1).Allocate d).1 =
      (a.Allocate d).1 := by
  have h1 : ((a.Allocate d).2.Free (a.Allocate d).1).used = a.used := by
    show removeRange (findFree 0 d a.used).1 (findFree 0 d a.used).2 = a.used
    exact removeRange_findFree hok
  refine ⟨h1, ?_⟩
  show (findFree 0 d ((a.Allocate d).2.Free (a.Allocate d).1).used).1 =
    (findFree 0 d a.used).1
  rw [h1]

theorem C8_witness :
    rangesOk 0 (⟨5, [(0, 1), (4, 1)]⟩ : IndexAllocator).used = true ∧
    ((((⟨5, [(0, 1), (4, 1)]⟩ : IndexAllocator).Allocate 3).2.Free
        ((⟨5, [(0, 1), (4, 1)]⟩ : IndexAllocator).Allocate 3).1).Allocate 3).1 =
      ((⟨5, [(0, 1), (4, 1)]⟩ : IndexAllocator).Allocate 3).1 :=
  ⟨by decide, (C8_alloc_free_alloc (⟨5, [(0, 1), (4, 1)]⟩ : IndexAllocator) 3
    (by decide)).2⟩

/-- Claim C4: `CountForIndex` (exposed as `Dimensions`) applied to the
base index of a live allocation returns exactly the dimension passed to
the allocating call, and every subsequent operation that does not free
that allocation preserves this value at the allocation's (possibly
relocated) base index — identity for allocate/free-of-others/transfer and
the defragment move map for relocations. -/
theorem C4_dimension_stability :
    (∀ s h d, wf s = true → 1 ≤ d → alookup h s.handleIdx = none →
      Dimensions (InitializeMotivator h d s) (findFree 0 d s.alloc.used).1 =
        some d) ∧
    (∀ o s i d, wf s = true → Dimensions s i = some d → survives o i = true →
      Dimensions (applyOp o s) (trackIndex o s i) = some d) := by
  constructor
  · intro s h d hwf hd hub
    have hok : rangesOk 0 s.alloc.used = true := ((wf_iff s).mp hwf).1
    unfold InitializeMotivator
    rw [if_pos (And.intro hd hub)]
    show alookup (findFree 0 d s.alloc.used).1 (findFree 0 d s.alloc.used).2 =
      some d
    rw [findFree_alookup hok, if_pos rfl]
  · intro o s i d hwf hdim hsurv
    have hok : rangesOk 0 s.alloc.used = true := ((wf_iff s).mp hwf).1
    have hdim' : alookup i s.alloc.used = some d := hdim
    cases o with
    | init h dd =>
      show Dimensions (InitializeMotivator h dd s) i = some d
      unfold InitializeMotivator
      by_cases hpre : 1 ≤ dd ∧ alookup h s.handleIdx = none
      · rw [if_pos hpre]
        show alookup i (findFree 0 dd s.alloc.used).2 = some d
        rw [findFree_alookup hok]
        have hfresh : alookup (findFree 0 dd s.alloc.used).1 s.alloc.used =
          none := findFree_fresh hok hpre.1
        have hne : ¬ i = (findFree 0 dd s.alloc.used).1 := by
          intro hh
          rw [hh, hfresh] at hdim'
          exact Option.noConfusion hdim'
        rw [if_neg hne]
        exact hdim'
      · rw [if_neg hpre]
        exact hdim
    | remove j =>
      have hne : ¬ j = i := of_decide_eq_true hsurv
      show Dimensions (RemoveMotivator j s) i = some d
      unfold RemoveMotivator
      cases hc : alookup j s.backRefs with
      | none => exact hdim
      | some h =>
        show alookup i (removeRange j s.alloc.used) = some d
        rw [alookup_removeRange hok j i, if_neg (fun hh => hne hh.symm)]
        exact hdim'
    | transfer j h =>
      show Dimensions (TransferMotivator j h s) i = some d
      unfold TransferMotivator
      cases hc : alookup j s.backRefs with
      | none => exact hdim
      | some h0 =>
        show Dimensions (if alookup h s.handleIdx = none then
          ⟨s.alloc, (j, h) :: aremove j s.backRefs,
            (h, j) :: aremove h0 s.handleIdx⟩ else s) i = some d
        by_cases hub : alookup h s.handleIdx = none
        · rw [if_pos hub]
          exact hdim'
        · rw [if_neg hub]
          exact hdim
    | defrag =>
      show alookup (lookupMove i (defragMoves 0 s.alloc.used))
        (packRanges 0 s.alloc.used) = some d
      exact alookup_packRanges hok hdim'

theorem C4_witness :
    Dimensions (InitializeMotivator 7 2 initState)
      (findFree 0 2 initState.alloc.used).1 = some 2 ∧
    Dimensions (applyOp Op.defrag (InitializeMotivator 7 2 initState))
      (trackIndex Op.defrag (InitializeMotivator 7 2 initState)
        (findFree 0 2 initState.alloc.used).1) = some 2 :=
  ⟨C4_dimension_stability.1 initState 7 2 (by decide) (by decide) (by decide),
   C4_dimension_stability.2 Op.defrag (InitializeMotivator 7 2 initState)
     (findFree 0 2 initState.alloc.used).1 2 (by decide) (by decide) (by decide)⟩

end Motive
